import Mathlib

set_option autoImplicit false

namespace ReleaseDetect

/-- Error raised by the version parser when a version string is malformed.
The payload is the original offending input string
(`throw new Error('Invalid version format: ' + version)` in src/utils/version.ts). -/
inductive VersionError where
  | invalidVersionFormat (input : String)
deriving DecidableEq

/-- The `SemVer` record type of src/utils/version.ts: the canonical version
string together with the three parsed integer components. -/
structure SemVer where
  version : String
  major : Nat
  minor : Nat
  patch : Nat
deriving DecidableEq

/-- Decimal digit character for a digit value below ten. -/
def digitToChar (d : Nat) : Char :=
  if d = 0 then '0' else if d = 1 then '1' else if d = 2 then '2'
  else if d = 3 then '3' else if d = 4 then '4' else if d = 5 then '5'
  else if d = 6 then '6' else if d = 7 then '7' else if d = 8 then '8' else '9'

/-- Fuel-driven little helper producing the decimal digits of a natural number
(most significant digit first). The fuel argument only bounds the recursion. -/
def decCharsAux : Nat → Nat → List Char
  | 0, _ => []
  | fuel + 1, n =>
    if n < 10 then [digitToChar n]
    else decCharsAux fuel (n / 10) ++ [digitToChar (n % 10)]

/-- Canonical decimal representation of a natural number as characters. -/
def decChars (n : Nat) : List Char := decCharsAux (n + 1) n

/-- Numeric value of a digit character. -/
def charVal (c : Char) : Nat := c.toNat - 48

/-- Value of a digit string read as a base-ten number. -/
def valChars (l : List Char) : Nat := l.foldl (fun a c => a * 10 + charVal c) 0

/-- Boolean test: a nonempty string made only of decimal digits. -/
def isDigitChars (l : List Char) : Bool := !l.isEmpty && l.all (·.isDigit)

/-- Parse a nonempty all-digit character string as a non-negative integer. -/
def parseNatChars (l : List Char) : Option Nat :=
  if isDigitChars l then some (valChars l) else none

/-- Split a character string at every dot (the separator is consumed);
mirrors splitting a version body into its dot-separated segments. -/
def splitDots : List Char → List (List Char)
  | [] => [[]]
  | c :: cs =>
    if c = '.' then [] :: splitDots cs
    else
      match splitDots cs with
      | [] => [[c]]
      | h :: t => (c :: h) :: t

/-- Strip at most one leading non-digit marker character (e.g. a leading "v"). -/
def stripMarker : List Char → List Char
  | [] => []
  | c :: cs => if c.isDigit then c :: cs else cs

/-- The canonical serialized form `major.minor.patch` as characters. -/
def canonChars (a b c : Nat) : List Char :=
  decChars a ++ '.' :: (decChars b ++ '.' :: decChars c)

/-- Modelled from the spec: `parseVersion` of src/utils/version.ts delegates the
actual parsing to the external npm `semver` package, whose code is not part of
this repository; following the spec's words, the parser strips at most one
leading non-digit marker character, then requires exactly three dot-separated
non-negative integers with no further suffix, returning the integer components
and the canonical (digits only, no marker) string, and failing with
`InvalidVersionFormat` carrying the original input otherwise. -/
def parseVersion (s : String) : Except VersionError SemVer :=
  match splitDots (stripMarker s.data) with
  | [x, y, z] =>
    match parseNatChars x, parseNatChars y, parseNatChars z with
    | some a, some b, some c => .ok ⟨⟨canonChars a b c⟩, a, b, c⟩
    | _, _, _ => .error (.invalidVersionFormat s)
  | _ => .error (.invalidVersionFormat s)

/-- `isMajorBump` of src/utils/version.ts: parse both version strings
(propagating the parse failure, which in the source is a thrown exception)
and compare the major components. -/
def isMajorBump (oldVersion newVersion : String) : Except VersionError Bool :=
  match parseVersion oldVersion with
  | .error e => .error e
  | .ok oldVer =>
    match parseVersion newVersion with
    | .error e => .error e
    | .ok newVer => .ok (decide (newVer.major > oldVer.major))

/-- A release-please manifest snapshot: a flat association of package path to
version string (a JS object `Record<string, string>`; keys are unique). -/
abbrev Manifest := List (String × String)

/-- Indexing `manifest[path]` on a JS object: the value at the first matching
key, or `none` when the key is missing. -/
def findVersion : Manifest → String → Option String
  | [], _ => none
  | (q, v) :: rest, path => if q = path then some v else findVersion rest path

/-- The `ManifestAnalysis` result record of src/utils/manifest.ts. -/
structure ManifestAnalysis where
  hasMajorBump : Bool
  majorBumps : List (String × String × String)
deriving DecidableEq

/-- The `for (const [path, newVersion] of Object.entries(newManifest))` loop of
`analyzeManifestChanges`: for each entry of the new snapshot, look the path up
in the old snapshot and record the pair when the guard
`oldVersion && oldVersion !== newVersion && isMajorBump(oldVersion, newVersion)`
holds; a parse failure inside `isMajorBump` aborts the whole loop. -/
def processEntries (oldM : Manifest) :
    List (String × String) → Except VersionError (List (String × String × String))
  | [] => .ok []
  | (path, newVersion) :: rest =>
    match findVersion oldM path with
    | none => processEntries oldM rest
    | some oldVersion =>
      if oldVersion = "" then processEntries oldM rest
      else if oldVersion = newVersion then processEntries oldM rest
      else
        match isMajorBump oldVersion newVersion with
        | .error e => .error e
        | .ok true =>
          match processEntries oldM rest with
          | .error e => .error e
          | .ok bumps => .ok ((path, oldVersion, newVersion) :: bumps)
        | .ok false => processEntries oldM rest

/-- `analyzeManifestChanges` of src/utils/manifest.ts: if either snapshot is
absent (`null`), return the empty non-bumping result; otherwise walk the new
snapshot's entries and aggregate, with `hasMajorBump` derived from the
recorded mapping's size. -/
def analyzeManifestChanges :
    Option Manifest → Option Manifest → Except VersionError ManifestAnalysis
  | some oldM, some newM =>
    match processEntries oldM newM with
    | .error e => .error e
    | .ok bumps => .ok ⟨decide (bumps.length > 0), bumps⟩
  | _, _ => .ok ⟨false, []⟩

/-- A nonempty run of decimal digit characters. -/
def DigitString (l : List Char) : Prop := l ≠ [] ∧ ∀ c ∈ l, c.isDigit = true

/-- The spec's input shape for a version string: an optional single leading
non-digit character followed by exactly three dot-separated non-negative
integers and nothing else. -/
def MatchesVersionShape (s : String) : Prop :=
  (∃ x y z : List Char, DigitString x ∧ DigitString y ∧ DigitString z ∧
    s.data = x ++ '.' :: (y ++ '.' :: z)) ∨
  (∃ p : Char, ∃ x y z : List Char, p.isDigit = false ∧
    DigitString x ∧ DigitString y ∧ DigitString z ∧
    s.data = p :: (x ++ '.' :: (y ++ '.' :: z)))

/-- What one entry of the new snapshot contributes, as a function of only the
two lookups at its path: the recorded pair when the guard passes, else nothing. -/
def entryOutcome : Option String → Option String → Option (String × String)
  | some ov, some nv =>
    if ov = "" then none
    else if ov = nv then none
    else
      match isMajorBump ov nv with
      | .ok true => some (ov, nv)
      | _ => none
  | _, _ => none

/-- Lookup of a recorded bump by package path. -/
def findBump : List (String × String × String) → String → Option (String × String)
  | [], _ => none
  | (q, pr) :: rest, path => if q = path then some pr else findBump rest path

lemma digitToChar_isDigit {d : Nat} (h : d < 10) : (digitToChar d).isDigit = true := by
  interval_cases d <;> decide

lemma charVal_digitToChar {d : Nat} (h : d < 10) : charVal (digitToChar d) = d := by
  interval_cases d <;> decide

lemma valChars_append_digit (l : List Char) (c : Char) :
    valChars (l ++ [c]) = valChars l * 10 + charVal c := by
  simp [valChars, List.foldl_append]

lemma decCharsAux_spec :
    ∀ fuel n, n < fuel →
      decCharsAux fuel n ≠ [] ∧ (∀ c ∈ decCharsAux fuel n, c.isDigit = true) ∧
        valChars (decCharsAux fuel n) = n := by
  intro fuel
  induction fuel with
  | zero => intro n h; omega
  | succ fuel ih =>
    intro n h
    by_cases h10 : n < 10
    · refine ⟨by simp [decCharsAux, h10], ?_, ?_⟩
      · intro c hc
        simp only [decCharsAux, if_pos h10, List.mem_singleton] at hc
        subst hc
        exact digitToChar_isDigit h10
      · simp [decCharsAux, h10, valChars, charVal_digitToChar h10]
    · have hpos : 0 < n := by omega
      have hdiv : n / 10 < fuel :=
        lt_of_lt_of_le (Nat.div_lt_self hpos (by omega)) (by omega)
      obtain ⟨h1, h2, h3⟩ := ih (n / 10) hdiv
      have heq : decCharsAux (fuel + 1) n =
          decCharsAux fuel (n / 10) ++ [digitToChar (n % 10)] := by
        simp [decCharsAux, h10]
      refine ⟨?_, ?_, ?_⟩
      · rw [heq]; simp
      · intro c hc
        rw [heq] at hc
        rcases List.mem_append.mp hc with hc | hc
        · exact h2 c hc
        · rw [List.mem_singleton] at hc
          subst hc
          exact digitToChar_isDigit (Nat.mod_lt _ (by omega))
      · rw [heq, valChars_append_digit, h3, charVal_digitToChar (Nat.mod_lt _ (by omega))]
        omega

lemma decChars_spec (n : Nat) :
    decChars n ≠ [] ∧ (∀ c ∈ decChars n, c.isDigit = true) ∧ valChars (decChars n) = n :=
  decCharsAux_spec (n + 1) n (Nat.lt_succ_self n)

lemma isDigitChars_iff {l : List Char} : isDigitChars l = true ↔ DigitString l := by
  simp [isDigitChars, DigitString, List.all_eq_true, List.isEmpty_iff]

lemma parseNatChars_of_digitString {l : List Char} (h : DigitString l) :
    parseNatChars l = some (valChars l) := by
  rw [parseNatChars, if_pos (isDigitChars_iff.mpr h)]

lemma digitString_of_parseNatChars {l : List Char} {k : Nat}
    (h : parseNatChars l = some k) : DigitString l := by
  rw [parseNatChars] at h
  split at h
  · exact isDigitChars_iff.mp (by assumption)
  · exact absurd h (by simp)

lemma parseNatChars_decChars (n : Nat) : parseNatChars (decChars n) = some n := by
  obtain ⟨h1, h2, h3⟩ := decChars_spec n
  rw [parseNatChars_of_digitString ⟨h1, h2⟩, h3]

lemma not_dot_mem_of_digitString {l : List Char} (h : DigitString l) : '.' ∉ l :=
  fun hm => absurd (h.2 '.' hm) (by decide)

lemma splitDots_ne_nil (l : List Char) : splitDots l ≠ [] := by
  match l with
  | [] => simp [splitDots]
  | c :: cs =>
    unfold splitDots
    split
    · simp
    · split <;> simp

lemma splitDots_append (x r : List Char) (hx : '.' ∉ x) :
    splitDots (x ++ '.' :: r) = x :: splitDots r := by
  induction x with
  | nil => simp [splitDots]
  | cons c cs ih =>
    have hc : c ≠ '.' := fun h => hx (h ▸ List.mem_cons_self c cs)
    have hcs : '.' ∉ cs := fun h => hx (List.mem_cons_of_mem _ h)
    rw [List.cons_append]
    unfold splitDots
    rw [if_neg hc, ih hcs]
    simp only []
    rw [← splitDots.eq_def]

lemma splitDots_no_dot (l : List Char) (h : '.' ∉ l) : splitDots l = [l] := by
  induction l with
  | nil => rfl
  | cons c cs ih =>
    have hc : c ≠ '.' := fun hcc => h (hcc ▸ List.mem_cons_self c cs)
    have hcs : '.' ∉ cs := fun hcc => h (List.mem_cons_of_mem _ hcc)
    unfold splitDots
    rw [if_neg hc, ih hcs]

/-- Inverse of `splitDots`: rejoin the segments with dots. -/
def joinDots : List (List Char) → List Char
  | [] => []
  | [x] => x
  | x :: xs => x ++ '.' :: joinDots xs

lemma joinDots_splitDots (l : List Char) : joinDots (splitDots l) = l := by
  induction l with
  | nil => rfl
  | cons c cs ih =>
    unfold splitDots
    by_cases hc : c = '.'
    · rw [if_pos hc]
      obtain ⟨h, t, hht⟩ := List.exists_cons_of_ne_nil (splitDots_ne_nil cs)
      rw [hht]
      show '.' :: joinDots (h :: t) = c :: cs
      rw [← hht, ih, hc]
    · rw [if_neg hc]
      obtain ⟨h, t, hht⟩ := List.exists_cons_of_ne_nil (splitDots_ne_nil cs)
      rw [hht]
      cases t with
      | nil =>
        have hcs : h = cs := by rw [hht] at ih; exact ih
        show c :: h = c :: cs
        rw [hcs]
      | cons y ys =>
        have hcs : joinDots (h :: y :: ys) = cs := by rw [hht] at ih; exact ih
        show (c :: h) ++ '.' :: joinDots (y :: ys) = c :: cs
        rw [← hcs]
        rfl

lemma splitDots_parts (l : List Char) : ∀ x ∈ splitDots l, '.' ∉ x := by
  induction l with
  | nil =>
    intro x hx
    simp only [splitDots, List.mem_singleton] at hx
    subst hx
    simp
  | cons c cs ih =>
    intro x hx
    unfold splitDots at hx
    by_cases hc : c = '.'
    · rw [if_pos hc] at hx
      rcases List.mem_cons.mp hx with h | h
      · subst h; simp
      · exact ih x h
    · rw [if_neg hc] at hx
      obtain ⟨h, t, hht⟩ := List.exists_cons_of_ne_nil (splitDots_ne_nil cs)
      rw [hht] at hx
      rcases List.mem_cons.mp hx with hxx | hxx
      · subst hxx
        intro hd
        rcases List.mem_cons.mp hd with hd | hd
        · exact hc hd.symm
        · have hmem : h ∈ splitDots cs := by rw [hht]; exact List.mem_cons_self h t
          exact ih h hmem hd
      · have hmem : x ∈ splitDots cs := by rw [hht]; exact List.mem_cons_of_mem _ hxx
        exact ih x hmem

lemma eq_of_splitDots_three {l x y z : List Char} (h : splitDots l = [x, y, z]) :
    l = x ++ '.' :: (y ++ '.' :: z) := by
  have hj := joinDots_splitDots l
  rw [h] at hj
  rw [← hj]
  rfl

lemma stripMarker_of_digit {c : Char} (cs : List Char) (h : c.isDigit = true) :
    stripMarker (c :: cs) = c :: cs := by
  simp [stripMarker, h]

lemma stripMarker_of_not_digit {c : Char} (cs : List Char) (h : c.isDigit = false) :
    stripMarker (c :: cs) = cs := by
  simp [stripMarker, h]

lemma parseVersion_eq_ok (s : String) (x y z : List Char) (a b c : Nat)
    (hs : splitDots (stripMarker s.data) = [x, y, z])
    (hx : parseNatChars x = some a) (hy : parseNatChars y = some b)
    (hz : parseNatChars z = some c) :
    parseVersion s = .ok ⟨⟨canonChars a b c⟩, a, b, c⟩ := by
  unfold parseVersion
  simp only [hs, hx, hy, hz]

lemma parseVersion_ok_inv {s : String} {v : SemVer} (h : parseVersion s = .ok v) :
    ∃ x y z a b c, splitDots (stripMarker s.data) = [x, y, z] ∧
      parseNatChars x = some a ∧ parseNatChars y = some b ∧ parseNatChars z = some c ∧
      v = ⟨⟨canonChars a b c⟩, a, b, c⟩ := by
  unfold parseVersion at h
  split at h
  · rename_i l0 x y z heq
    split at h
    · rename_i o1 o2 o3 a b c ha hb hc
      refine ⟨x, y, z, a, b, c, heq, ha, hb, hc, ?_⟩
      exact (Except.ok.injEq _ _ ▸ h).symm
    · exact absurd h (by simp)
  · exact absurd h (by simp)

lemma parseVersion_cases (s : String) :
    (∃ v, parseVersion s = .ok v) ∨ parseVersion s = .error (.invalidVersionFormat s) := by
  unfold parseVersion
  split
  · split
    · exact Or.inl ⟨_, rfl⟩
    · exact Or.inr rfl
  · exact Or.inr rfl

lemma splitDots_of_digit_triple {x y z : List Char}
    (hdx : DigitString x) (hdy : DigitString y) (hdz : DigitString z) :
    splitDots (x ++ '.' :: (y ++ '.' :: z)) = [x, y, z] := by
  rw [splitDots_append _ _ (not_dot_mem_of_digitString hdx),
    splitDots_append _ _ (not_dot_mem_of_digitString hdy),
    splitDots_no_dot _ (not_dot_mem_of_digitString hdz)]

lemma stripMarker_of_digit_head {x : List Char} (r : List Char) (hdx : DigitString x) :
    stripMarker (x ++ r) = x ++ r := by
  obtain ⟨d, x', hx'⟩ := List.exists_cons_of_ne_nil hdx.1
  have hd : d.isDigit = true := hdx.2 d (hx' ▸ List.mem_cons_self d x')
  rw [hx', List.cons_append, stripMarker_of_digit _ hd]

/-- Claim C3: `parseVersion` succeeds exactly on strings of the shape
"optional single leading non-digit character, then exactly three dot-separated
non-negative integers, nothing else", and on every other input it fails with
`InvalidVersionFormat` carrying the original offending input string. -/
theorem parseVersion_domain (s : String) :
    ((∃ v, parseVersion s = .ok v) ↔ MatchesVersionShape s) ∧
    ((∃ v, parseVersion s = .ok v) ∨ parseVersion s = .error (.invalidVersionFormat s)) := by
  refine ⟨⟨?_, ?_⟩, parseVersion_cases s⟩
  · rintro ⟨v, hv⟩
    obtain ⟨x, y, z, a, b, c, hs, hx, hy, hz, -⟩ := parseVersion_ok_inv hv
    have hdx : DigitString x := digitString_of_parseNatChars hx
    have hdy : DigitString y := digitString_of_parseNatChars hy
    have hdz : DigitString z := digitString_of_parseNatChars hz
    have hjoin : stripMarker s.data = x ++ '.' :: (y ++ '.' :: z) := eq_of_splitDots_three hs
    rcases hsd : s.data with _ | ⟨c0, cs0⟩
    · rw [hsd] at hjoin
      have : ([] : List Char) = x ++ '.' :: (y ++ '.' :: z) := hjoin
      exact absurd this.symm (by cases x <;> simp)
    · rw [hsd] at hjoin
      by_cases hd : c0.isDigit
      · refine Or.inl ⟨x, y, z, hdx, hdy, hdz, ?_⟩
        rw [stripMarker_of_digit cs0 hd] at hjoin
        rw [hsd, hjoin]
      · refine Or.inr ⟨c0, x, y, z, Bool.eq_false_iff.mpr hd, hdx, hdy, hdz, ?_⟩
        rw [stripMarker_of_not_digit cs0 (Bool.eq_false_iff.mpr hd)] at hjoin
        rw [hsd, hjoin]
  · intro hshape
    rcases hshape with ⟨x, y, z, hdx, hdy, hdz, heq⟩ | ⟨p, x, y, z, hp, hdx, hdy, hdz, heq⟩
    · have hsplit : splitDots (stripMarker s.data) = [x, y, z] := by
        rw [heq, stripMarker_of_digit_head _ hdx]
        exact splitDots_of_digit_triple hdx hdy hdz
      exact ⟨_, parseVersion_eq_ok s x y z _ _ _ hsplit (parseNatChars_of_digitString hdx)
        (parseNatChars_of_digitString hdy) (parseNatChars_of_digitString hdz)⟩
    · have hsplit : splitDots (stripMarker s.data) = [x, y, z] := by
        rw [heq, stripMarker_of_not_digit _ hp]
        exact splitDots_of_digit_triple hdx hdy hdz
      exact ⟨_, parseVersion_eq_ok s x y z _ _ _ hsplit (parseNatChars_of_digitString hdx)
        (parseNatChars_of_digitString hdy) (parseNatChars_of_digitString hdz)⟩

/-- Claim C8: on the canonical decimal string `major.minor.patch` the parser
succeeds and returns that very string as the canonical version field, and on
the same string with a single "v" marker it returns the digits-only form with
the marker removed. -/
theorem parseVersion_canonical_roundtrip (a b c : Nat) :
    parseVersion ⟨canonChars a b c⟩ = .ok ⟨⟨canonChars a b c⟩, a, b, c⟩ ∧
    parseVersion ⟨'v' :: canonChars a b c⟩ = .ok ⟨⟨canonChars a b c⟩, a, b, c⟩ := by
  have hda : DigitString (decChars a) := ⟨(decChars_spec a).1, (decChars_spec a).2.1⟩
  have hdb : DigitString (decChars b) := ⟨(decChars_spec b).1, (decChars_spec b).2.1⟩
  have hdc : DigitString (decChars c) := ⟨(decChars_spec c).1, (decChars_spec c).2.1⟩
  have hsplit : splitDots (canonChars a b c) = [decChars a, decChars b, decChars c] :=
    splitDots_of_digit_triple hda hdb hdc
  constructor
  · apply parseVersion_eq_ok _ (decChars a) (decChars b) (decChars c) _ _ _ _
      (parseNatChars_decChars a) (parseNatChars_decChars b) (parseNatChars_decChars c)
    show splitDots (stripMarker (canonChars a b c)) = _
    rw [show stripMarker (canonChars a b c) = canonChars a b c from
      stripMarker_of_digit_head _ hda]
    exact hsplit
  · apply parseVersion_eq_ok _ (decChars a) (decChars b) (decChars c) _ _ _ _
      (parseNatChars_decChars a) (parseNatChars_decChars b) (parseNatChars_decChars c)
    show splitDots (stripMarker ('v' :: canonChars a b c)) = _
    rw [stripMarker_of_not_digit _ (by decide)]
    exact hsplit

/-- Claim C1: when both version strings parse, `isMajorBump` returns exactly
the comparison "new major strictly greater than old major"; in particular it
is false on equal majors (whatever minor and patch do), false on the same
string twice, and false when the major decreases. -/
theorem isMajorBump_iff_major_gt (oldT newT : String) (oldV newV : SemVer)
    (ho : parseVersion oldT = .ok oldV) (hn : parseVersion newT = .ok newV) :
    isMajorBump oldT newT = .ok (decide (newV.major > oldV.major)) := by
  unfold isMajorBump
  simp only [ho, hn]

/-- Concrete instance of claim C1's theorem at "1.2.3" and "2.0.0". -/
theorem isMajorBump_iff_major_gt_witness : isMajorBump "1.2.3" "2.0.0" = .ok true := by
  have h := isMajorBump_iff_major_gt "1.2.3" "2.0.0" ⟨"1.2.3", 1, 2, 3⟩ ⟨"2.0.0", 2, 0, 0⟩
    (by rfl) (by rfl)
  simpa using h

lemma isMajorBump_ok_true_inv {a b : String} (h : isMajorBump a b = .ok true) :
    ∃ va vb, parseVersion a = .ok va ∧ parseVersion b = .ok vb ∧ vb.major > va.major := by
  unfold isMajorBump at h
  cases hpa : parseVersion a with
  | error e => simp only [hpa] at h; cases h
  | ok va =>
    simp only [hpa] at h
    cases hpb : parseVersion b with
    | error e => simp only [hpb] at h; cases h
    | ok vb =>
      simp only [hpb] at h
      refine ⟨va, vb, rfl, rfl, ?_⟩
      have hd : decide (vb.major > va.major) = true := by
        injection h
      exact of_decide_eq_true hd

lemma isMajorBump_error_of {a b : String}
    (h : (∃ t, parseVersion a = .error t) ∨ (∃ t, parseVersion b = .error t)) :
    ∃ e, isMajorBump a b = .error e := by
  unfold isMajorBump
  cases hpa : parseVersion a with
  | error e => exact ⟨e, by simp⟩
  | ok va =>
    cases hpb : parseVersion b with
    | error e => exact ⟨e, by simp⟩
    | ok vb =>
      exfalso
      rcases h with ⟨t, ht⟩ | ⟨t, ht⟩
      · rw [hpa] at ht; cases ht
      · rw [hpb] at ht; cases ht

lemma mem_processEntries {oldM : Manifest} :
    ∀ {n : List (String × String)} {l : List (String × String × String)} {p ov nv : String},
      processEntries oldM n = .ok l → (p, ov, nv) ∈ l →
      findVersion oldM p = some ov ∧ (p, nv) ∈ n ∧ ov ≠ "" ∧ ov ≠ nv ∧
        isMajorBump ov nv = .ok true := by
  intro n
  induction n with
  | nil =>
    intro l p ov nv h hm
    unfold processEntries at h
    injection h with h'
    subst h'
    cases hm
  | cons entry rest ih =>
    intro l p ov nv h hm
    obtain ⟨path, newVersion⟩ := entry
    unfold processEntries at h
    cases hfv : findVersion oldM path with
    | none =>
      simp only [hfv] at h
      obtain ⟨h1, h2, h3, h4, h5⟩ := ih h hm
      exact ⟨h1, List.mem_cons_of_mem _ h2, h3, h4, h5⟩
    | some ow =>
      simp only [hfv] at h
      by_cases hw1 : ow = ""
      · rw [if_pos hw1] at h
        obtain ⟨h1, h2, h3, h4, h5⟩ := ih h hm
        exact ⟨h1, List.mem_cons_of_mem _ h2, h3, h4, h5⟩
      · rw [if_neg hw1] at h
        by_cases hw2 : ow = newVersion
        · rw [if_pos hw2] at h
          obtain ⟨h1, h2, h3, h4, h5⟩ := ih h hm
          exact ⟨h1, List.mem_cons_of_mem _ h2, h3, h4, h5⟩
        · rw [if_neg hw2] at h
          cases hmb : isMajorBump ow newVersion with
          | error e => simp only [hmb] at h; cases h
          | ok bb =>
            simp only [hmb] at h
            cases bb with
            | false =>
              obtain ⟨h1, h2, h3, h4, h5⟩ := ih h hm
              exact ⟨h1, List.mem_cons_of_mem _ h2, h3, h4, h5⟩
            | true =>
              cases hrec : processEntries oldM rest with
              | error e => simp only [hrec] at h; cases h
              | ok bumps =>
                simp only [hrec] at h
                injection h with h'
                subst h'
                rcases List.mem_cons.mp hm with he | he
                · simp only [Prod.mk.injEq] at he
                  obtain ⟨hp, hov, hnv⟩ := he
                  subst hp; subst hov; subst hnv
                  exact ⟨hfv, List.mem_cons_self _ _, hw1, hw2, hmb⟩
                · obtain ⟨h1, h2, h3, h4, h5⟩ := ih hrec he
                  exact ⟨h1, List.mem_cons_of_mem _ h2, h3, h4, h5⟩

lemma processEntries_cons {oldM : Manifest} (q w : String)
    (rest : List (String × String)) :
    processEntries oldM ((q, w) :: rest) =
      match findVersion oldM q with
      | none => processEntries oldM rest
      | some ov =>
        if ov = "" then processEntries oldM rest
        else if ov = w then processEntries oldM rest
        else
          match isMajorBump ov w with
          | .error e => .error e
          | .ok true =>
            match processEntries oldM rest with
            | .error e => .error e
            | .ok bumps => .ok ((q, ov, w) :: bumps)
          | .ok false => processEntries oldM rest := rfl

lemma processEntries_cons_none {oldM : Manifest} {q : String} (w : String)
    {rest : List (String × String)} (h : findVersion oldM q = none) :
    processEntries oldM ((q, w) :: rest) = processEntries oldM rest := by
  rw [processEntries_cons, h]

lemma processEntries_cons_empty {oldM : Manifest} {q : String} (w : String)
    {rest : List (String × String)} (h : findVersion oldM q = some "") :
    processEntries oldM ((q, w) :: rest) = processEntries oldM rest := by
  rw [processEntries_cons, h]
  simp

lemma processEntries_filter_of_skip {oldM : Manifest} {p : String}
    (hskip : findVersion oldM p = none ∨ findVersion oldM p = some "") :
    ∀ n : List (String × String),
      processEntries oldM (n.filter (fun e => e.1 ≠ p)) = processEntries oldM n := by
  intro n
  induction n with
  | nil => rfl
  | cons entry rest ih =>
    obtain ⟨q, w⟩ := entry
    by_cases hq : q = p
    · subst hq
      rw [show List.filter (fun e => decide (e.1 ≠ q)) ((q, w) :: rest) =
          List.filter (fun e => decide (e.1 ≠ q)) rest from by simp [List.filter_cons]]
      rw [ih]
      rcases hskip with hs | hs
      · rw [processEntries_cons_none w hs]
      · rw [processEntries_cons_empty w hs]
    · rw [show List.filter (fun e => decide (e.1 ≠ p)) ((q, w) :: rest) =
          (q, w) :: List.filter (fun e => decide (e.1 ≠ p)) rest from by
        simp [List.filter_cons, hq]]
      rw [processEntries_cons q w (List.filter (fun e => decide (e.1 ≠ p)) rest),
        processEntries_cons q w rest, ih]

lemma processEntries_error_of_bad {oldM : Manifest} :
    ∀ {n : List (String × String)} {p ov nv : String},
      (p, nv) ∈ n → findVersion oldM p = some ov → ov ≠ "" → ov ≠ nv →
      (∃ e, isMajorBump ov nv = .error e) →
      ∃ e, processEntries oldM n = .error e := by
  intro n
  induction n with
  | nil => intro p ov nv hm; cases hm
  | cons entry rest ih =>
    intro p ov nv hm ho hne hnev hbad
    obtain ⟨q, w⟩ := entry
    rcases List.mem_cons.mp hm with he | he
    · simp only [Prod.mk.injEq] at he
      obtain ⟨hp, hw⟩ := he
      subst hp; subst hw
      obtain ⟨e, hbe⟩ := hbad
      refine ⟨e, ?_⟩
      unfold processEntries
      rw [ho]
      simp only []
      rw [if_neg hne, if_neg hnev, hbe]
    · obtain ⟨e, hre⟩ := ih he ho hne hnev hbad
      unfold processEntries
      cases hfv : findVersion oldM q with
      | none => exact ⟨e, by simp only [hfv]; exact hre⟩
      | some ow =>
        simp only [hfv]
        by_cases hw1 : ow = ""
        · rw [if_pos hw1]; exact ⟨e, hre⟩
        · rw [if_neg hw1]
          by_cases hw2 : ow = w
          · rw [if_pos hw2]; exact ⟨e, hre⟩
          · rw [if_neg hw2]
            cases hmb : isMajorBump ow w with
            | error e2 => exact ⟨e2, by simp⟩
            | ok bb =>
              cases bb with
              | false => exact ⟨e, hre⟩
              | true => exact ⟨e, by rw [hre]⟩

lemma findBump_eq_none_of_not_mem {l : List (String × String × String)} {p : String}
    (h : ∀ pr : String × String, (p, pr) ∉ l) : findBump l p = none := by
  induction l with
  | nil => rfl
  | cons entry rest ih =>
    obtain ⟨q, pr⟩ := entry
    unfold findBump
    by_cases hq : q = p
    · subst hq
      exact absurd (List.mem_cons_self _ _) (h pr)
    · rw [if_neg hq]
      exact ih fun pr2 hm => h pr2 (List.mem_cons_of_mem _ hm)

lemma findVersion_eq_some_of_mem_nodup {n : Manifest} {p v : String}
    (hm : (p, v) ∈ n) (hnd : (n.map Prod.fst).Nodup) : findVersion n p = some v := by
  induction n with
  | nil => cases hm
  | cons entry rest ih =>
    obtain ⟨q, w⟩ := entry
    rw [List.map_cons, List.nodup_cons] at hnd
    rcases List.mem_cons.mp hm with he | he
    · simp only [Prod.mk.injEq] at he
      obtain ⟨hp, hv⟩ := he
      subst hp; subst hv
      simp [findVersion]
    · by_cases hq : q = p
      · subst hq
        exact absurd (List.mem_map.mpr ⟨(q, v), he, rfl⟩) hnd.1
      · rw [show findVersion ((q, w) :: rest) p = findVersion rest p from by
          simp [findVersion, hq]]
        exact ih he hnd.2

lemma findBump_processEntries {oldM : Manifest} :
    ∀ {n : List (String × String)} {l : List (String × String × String)} {p : String},
      (n.map Prod.fst).Nodup → processEntries oldM n = .ok l →
      findBump l p = entryOutcome (findVersion oldM p) (findVersion n p) := by
  intro n
  induction n with
  | nil =>
    intro l p hnd h
    unfold processEntries at h
    injection h with h'
    subst h'
    cases findVersion oldM p <;> rfl
  | cons entry rest ih =>
    intro l p hnd h
    obtain ⟨q, w⟩ := entry
    rw [List.map_cons, List.nodup_cons] at hnd
    obtain ⟨hq_notin, hnd'⟩ := hnd
    unfold processEntries at h
    by_cases hqp : q = p
    · subst hqp
      rw [show findVersion ((q, w) :: rest) q = some w from by simp [findVersion]]
      cases hfv : findVersion oldM q with
      | none =>
        simp only [hfv] at h
        have hnone : ∀ pr : String × String, (q, pr) ∉ l := by
          rintro ⟨a1, a2⟩ hmem
          obtain ⟨h1, -⟩ := mem_processEntries h hmem
          rw [hfv] at h1
          cases h1
        rw [findBump_eq_none_of_not_mem hnone]
        rfl
      | some ow =>
        simp only [hfv] at h
        have hnone_of : processEntries oldM rest = .ok l →
            ∀ pr : String × String, (q, pr) ∉ l := by
          rintro hre ⟨a1, a2⟩ hmem
          obtain ⟨-, h2, -⟩ := mem_processEntries hre hmem
          exact hq_notin (List.mem_map.mpr ⟨(q, a2), h2, rfl⟩)
        by_cases hw1 : ow = ""
        · rw [if_pos hw1] at h
          rw [findBump_eq_none_of_not_mem (hnone_of h)]
          simp [entryOutcome, hw1]
        · rw [if_neg hw1] at h
          by_cases hw2 : ow = w
          · rw [if_pos hw2] at h
            rw [findBump_eq_none_of_not_mem (hnone_of h)]
            simp [entryOutcome, hw1, hw2]
          · rw [if_neg hw2] at h
            cases hmb : isMajorBump ow w with
            | error e => simp only [hmb] at h; cases h
            | ok bb =>
              simp only [hmb] at h
              cases bb with
              | false =>
                rw [findBump_eq_none_of_not_mem (hnone_of h)]
                simp [entryOutcome, hw1, hw2, hmb]
              | true =>
                cases hrec : processEntries oldM rest with
                | error e => simp only [hrec] at h; cases h
                | ok bumps =>
                  simp only [hrec] at h
                  injection h with h'
                  subst h'
                  simp [findBump, entryOutcome, hw1, hw2, hmb]
    · rw [show findVersion ((q, w) :: rest) p = findVersion rest p from by
        simp [findVersion, hqp]]
      cases hfv : findVersion oldM q with
      | none =>
        simp only [hfv] at h
        exact ih hnd' h
      | some ow =>
        simp only [hfv] at h
        by_cases hw1 : ow = ""
        · rw [if_pos hw1] at h; exact ih hnd' h
        · rw [if_neg hw1] at h
          by_cases hw2 : ow = w
          · rw [if_pos hw2] at h; exact ih hnd' h
          · rw [if_neg hw2] at h
            cases hmb : isMajorBump ow w with
            | error e => simp only [hmb] at h; cases h
            | ok bb =>
              simp only [hmb] at h
              cases bb with
              | false => exact ih hnd' h
              | true =>
                cases hrec : processEntries oldM rest with
                | error e => simp only [hrec] at h; cases h
                | ok bumps =>
                  simp only [hrec] at h
                  injection h with h'
                  subst h'
                  rw [show findBump ((q, ow, w) :: bumps) p = findBump bumps p from by
                    simp [findBump, hqp]]
                  exact ih hnd' hrec

lemma analyzeManifestChanges_some (o n : Manifest) :
    analyzeManifestChanges (some o) (some n) =
      match processEntries o n with
      | .error e => .error e
      | .ok bumps => .ok ⟨decide (bumps.length > 0), bumps⟩ := rfl

/-- Claim C4: when either snapshot is the absent sentinel,
`analyzeManifestChanges` returns exactly the empty non-bumping result, with no
error, whatever the other argument is. -/
theorem analyzeManifestChanges_absent (oldM newM : Option Manifest)
    (h : oldM = none ∨ newM = none) :
    analyzeManifestChanges oldM newM = .ok ⟨false, []⟩ := by
  rcases h with h | h
  · subst h; cases newM <;> rfl
  · subst h; cases oldM <;> rfl

/-- Concrete instance of claim C4's theorem: absent old snapshot, present
non-empty new snapshot. -/
theorem analyzeManifestChanges_absent_witness :
    analyzeManifestChanges none (some [(".", "1.0.0")]) = .ok ⟨false, []⟩ :=
  analyzeManifestChanges_absent none (some [(".", "1.0.0")]) (Or.inl rfl)

/-- Claim C7: in every successful result of `analyzeManifestChanges`, the
`hasMajorBump` flag is true exactly when the recorded bump mapping is
non-empty. -/
theorem hasMajorBump_iff_bumps_nonempty (oldM newM : Option Manifest)
    (r : ManifestAnalysis) (h : analyzeManifestChanges oldM newM = .ok r) :
    r.hasMajorBump = true ↔ r.majorBumps ≠ [] := by
  cases oldM with
  | none =>
    have hr : r = ⟨false, []⟩ := by
      cases newM <;> (injection h with h'; exact h'.symm)
    subst hr
    simp
  | some o =>
    cases newM with
    | none =>
      have hr : r = ⟨false, []⟩ := by injection h with h'; exact h'.symm
      subst hr
      simp
    | some n =>
      unfold analyzeManifestChanges at h
      cases hp : processEntries o n with
      | error e => simp only [hp] at h; cases h
      | ok bumps =>
        simp only [hp] at h
        injection h with h'
        subst h'
        show decide (bumps.length > 0) = true ↔ bumps ≠ []
        rw [decide_eq_true_eq]
        exact List.length_pos

/-- Concrete instance of claim C7's theorem at a pair of absent snapshots. -/
theorem hasMajorBump_iff_bumps_nonempty_witness :
    ((⟨false, []⟩ : ManifestAnalysis).hasMajorBump = true ↔
      (⟨false, []⟩ : ManifestAnalysis).majorBumps ≠ []) :=
  hasMajorBump_iff_bumps_nonempty none none ⟨false, []⟩ rfl

/-- Claim C6: every entry of a successful result's bump mapping names a path
present in both snapshots, carries exactly the two snapshots' strings at that
path, the two strings differ, and the parsed new major strictly exceeds the
parsed old major. -/
theorem majorBumps_sound (o n : Manifest) (r : ManifestAnalysis) (p ov nv : String)
    (hnd : (n.map Prod.fst).Nodup)
    (h : analyzeManifestChanges (some o) (some n) = .ok r)
    (hm : (p, ov, nv) ∈ r.majorBumps) :
    findVersion o p = some ov ∧ findVersion n p = some nv ∧ ov ≠ nv ∧
      ∃ vo vn, parseVersion ov = .ok vo ∧ parseVersion nv = .ok vn ∧
        vn.major > vo.major := by
  unfold analyzeManifestChanges at h
  cases hp : processEntries o n with
  | error e => simp only [hp] at h; cases h
  | ok bumps =>
    simp only [hp] at h
    injection h with h'
    subst h'
    obtain ⟨h1, h2, h3, h4, h5⟩ := mem_processEntries hp hm
    obtain ⟨vo, vn, hvo, hvn, hgt⟩ := isMajorBump_ok_true_inv h5
    exact ⟨h1, findVersion_eq_some_of_mem_nodup h2 hnd, h4, vo, vn, hvo, hvn, hgt⟩

/-- Concrete instance of claim C6's theorem at the recorded bump of scenario A. -/
theorem majorBumps_sound_witness :
    findVersion [(".", "1.2.3")] "." = some "1.2.3" ∧
    findVersion [(".", "2.0.0")] "." = some "2.0.0" ∧
    "1.2.3" ≠ "2.0.0" ∧
    ∃ vo vn, parseVersion "1.2.3" = .ok vo ∧ parseVersion "2.0.0" = .ok vn ∧
      vn.major > vo.major :=
  majorBumps_sound [(".", "1.2.3")] [(".", "2.0.0")] ⟨true, [(".", "1.2.3", "2.0.0")]⟩
    "." "1.2.3" "2.0.0" (by simp) rfl (by simp)

/-- Claim C5: a path absent from the old snapshot never contributes to the
result: deleting its entries from the new snapshot changes nothing (so it can
neither cause a failure nor a bump), and it never appears in the bump mapping
of a successful run. -/
theorem newPackage_never_reported (o n : Manifest) (p : String)
    (h : findVersion o p = none) :
    analyzeManifestChanges (some o) (some n) =
      analyzeManifestChanges (some o) (some (n.filter (fun e => e.1 ≠ p))) ∧
    ∀ r ov nv, analyzeManifestChanges (some o) (some n) = .ok r →
      (p, ov, nv) ∉ r.majorBumps := by
  constructor
  · rw [analyzeManifestChanges_some o n,
      analyzeManifestChanges_some o (List.filter (fun e => decide (e.1 ≠ p)) n),
      processEntries_filter_of_skip (Or.inl h) n]
  · intro r ov nv hr hm
    unfold analyzeManifestChanges at hr
    cases hp : processEntries o n with
    | error e => simp only [hp] at hr; cases hr
    | ok bumps =>
      simp only [hp] at hr
      injection hr with hr'
      subst hr'
      obtain ⟨h1, -⟩ := mem_processEntries hp hm
      rw [h] at h1
      cases h1

/-- Concrete instance of claim C5's theorem: a newly introduced path with a
major above 1 changes nothing. -/
theorem newPackage_never_reported_witness :
    analyzeManifestChanges (some [("packages/existing", "1.0.0")])
        (some [("packages/existing", "1.0.0"), ("packages/new", "2.0.0")]) =
      analyzeManifestChanges (some [("packages/existing", "1.0.0")])
        (some ([("packages/existing", "1.0.0"), ("packages/new", "2.0.0")].filter
          (fun e => e.1 ≠ "packages/new"))) :=
  (newPackage_never_reported [("packages/existing", "1.0.0")]
    [("packages/existing", "1.0.0"), ("packages/new", "2.0.0")] "packages/new" rfl).1

/-- Claim C10: a path mapped to the empty string in the old snapshot is
silently skipped: deleting its entries from the new snapshot changes nothing
(so it can neither raise `InvalidVersionFormat` nor a bump), and it never
appears in the bump mapping of a successful run, whatever valid version the
new snapshot carries there. -/
theorem emptyOldVersion_skipped (o n : Manifest) (p : String)
    (h : findVersion o p = some "") :
    analyzeManifestChanges (some o) (some n) =
      analyzeManifestChanges (some o) (some (n.filter (fun e => e.1 ≠ p))) ∧
    ∀ r ov nv, analyzeManifestChanges (some o) (some n) = .ok r →
      (p, ov, nv) ∉ r.majorBumps := by
  constructor
  · rw [analyzeManifestChanges_some o n,
      analyzeManifestChanges_some o (List.filter (fun e => decide (e.1 ≠ p)) n),
      processEntries_filter_of_skip (Or.inr h) n]
  · intro r ov nv hr hm
    unfold analyzeManifestChanges at hr
    cases hp : processEntries o n with
    | error e => simp only [hp] at hr; cases hr
    | ok bumps =>
      simp only [hp] at hr
      injection hr with hr'
      subst hr'
      obtain ⟨h1, -, h3, -⟩ := mem_processEntries hp hm
      rw [h] at h1
      injection h1 with h1'
      exact h3 h1'.symm

/-- Concrete instance of claim C10's theorem: empty old string versus a large
valid new major. -/
theorem emptyOldVersion_skipped_witness :
    analyzeManifestChanges (some [(".", "")]) (some [(".", "9.0.0")]) =
      analyzeManifestChanges (some [(".", "")])
        (some ([(".", "9.0.0")].filter (fun e => e.1 ≠ "."))) :=
  (emptyOldVersion_skipped [(".", "")] [(".", "9.0.0")] "." rfl).1

/-- Claim C9: the per-path outcome of `analyzeManifestChanges` is
key-independent: two successful runs whose snapshots agree on the lookups at a
path record the same thing (or equally nothing) at that path. -/
theorem analysis_key_independent (o1 n1 o2 n2 : Manifest) (p : String)
    (r1 r2 : ManifestAnalysis)
    (hnd1 : (n1.map Prod.fst).Nodup) (hnd2 : (n2.map Prod.fst).Nodup)
    (h1 : analyzeManifestChanges (some o1) (some n1) = .ok r1)
    (h2 : analyzeManifestChanges (some o2) (some n2) = .ok r2)
    (ho : findVersion o1 p = findVersion o2 p)
    (hn : findVersion n1 p = findVersion n2 p) :
    findBump r1.majorBumps p = findBump r2.majorBumps p := by
  unfold analyzeManifestChanges at h1 h2
  cases hp1 : processEntries o1 n1 with
  | error e => simp only [hp1] at h1; cases h1
  | ok bumps1 =>
    simp only [hp1] at h1
    injection h1 with h1'
    cases hp2 : processEntries o2 n2 with
    | error e => simp only [hp2] at h2; cases h2
    | ok bumps2 =>
      simp only [hp2] at h2
      injection h2 with h2'
      subst h1'
      subst h2'
      show findBump bumps1 p = findBump bumps2 p
      rw [findBump_processEntries hnd1 hp1, findBump_processEntries hnd2 hp2, ho, hn]

/-- Concrete instance of claim C9's theorem: two runs agreeing at "." but
differing at another path. -/
theorem analysis_key_independent_witness :
    findBump (⟨true, [(".", "1.0.0", "2.0.0")]⟩ : ManifestAnalysis).majorBumps "." =
      findBump (⟨true, [(".", "1.0.0", "2.0.0")]⟩ : ManifestAnalysis).majorBumps "." :=
  analysis_key_independent [(".", "1.0.0")] [(".", "2.0.0")]
    [(".", "1.0.0"), ("x", "1.0.0")] [(".", "2.0.0"), ("x", "1.5.0")] "."
    ⟨true, [(".", "1.0.0", "2.0.0")]⟩ ⟨true, [(".", "1.0.0", "2.0.0")]⟩
    (by simp) (by simp) rfl rfl rfl rfl

/-- Claim C2 counterexample: "garbage" does not parse, yet when both snapshots
carry the identical malformed string at a path in the overlap,
`analyzeManifestChanges` succeeds with the empty result instead of failing:
the equal-strings guard short-circuits before any parsing. -/
theorem malformed_overlap_not_always_fatal :
    parseVersion "garbage" = .error (.invalidVersionFormat "garbage") ∧
    analyzeManifestChanges (some [(".", "garbage")]) (some [(".", "garbage")]) =
      .ok ⟨false, []⟩ :=
  ⟨rfl, rfl⟩

/-- Claim C2 (amended): for present snapshots, if some path of the new
snapshot is mapped in the old snapshot to a non-empty string that differs from
the new string, and either of the two strings is malformed, then the whole
analysis fails with an `InvalidVersionFormat` error and produces no result. -/
theorem analyzeManifestChanges_fail_fast (o n : Manifest) (p ov nv : String)
    (hmem : (p, nv) ∈ n) (ho : findVersion o p = some ov)
    (hne : ov ≠ "") (hnev : ov ≠ nv)
    (hbad : (∃ t, parseVersion ov = .error t) ∨ (∃ t, parseVersion nv = .error t)) :
    ∃ t, analyzeManifestChanges (some o) (some n) = .error (.invalidVersionFormat t) := by
  obtain ⟨e, he⟩ := isMajorBump_error_of hbad
  obtain ⟨e2, he2⟩ := processEntries_error_of_bad hmem ho hne hnev ⟨e, he⟩
  cases e2 with
  | invalidVersionFormat t =>
    refine ⟨t, ?_⟩
    rw [analyzeManifestChanges_some, he2]

/-- Concrete instance of the amended claim C2's theorem: one malformed new
string in the overlap aborts the analysis. -/
theorem analyzeManifestChanges_fail_fast_witness :
    ∃ t, analyzeManifestChanges (some [(".", "1.0.0")]) (some [(".", "bad")]) =
      .error (.invalidVersionFormat t) :=
  analyzeManifestChanges_fail_fast [(".", "1.0.0")] [(".", "bad")] "." "1.0.0" "bad"
    (by simp) rfl (by decide) (by decide) (Or.inr ⟨.invalidVersionFormat "bad", rfl⟩)

example : parseVersion "1.2.3" = .ok ⟨"1.2.3", 1, 2, 3⟩ := rfl
example : parseVersion "v10.20.30" = .ok ⟨"10.20.30", 10, 20, 30⟩ := rfl
example : parseVersion "1.2" = .error (.invalidVersionFormat "1.2") := rfl
example : parseVersion "vv1.2.3" = .error (.invalidVersionFormat "vv1.2.3") := rfl
example : parseVersion "" = .error (.invalidVersionFormat "") := rfl
example : parseVersion "1.2.x" = .error (.invalidVersionFormat "1.2.x") := rfl
example : isMajorBump "1.2.3" "2.0.0" = .ok true := rfl
example : isMajorBump "1.2.3" "1.3.0" = .ok false := rfl
example : analyzeManifestChanges (some [(".", "1.2.3")]) (some [(".", "2.0.0")]) =
    .ok ⟨true, [(".", "1.2.3", "2.0.0")]⟩ := rfl
example : analyzeManifestChanges (some [(".", "garbage")]) (some [(".", "garbage")]) =
    .ok ⟨false, []⟩ := rfl
example : analyzeManifestChanges none (some [(".", "1.0.0")]) = .ok ⟨false, []⟩ := rfl

end ReleaseDetect
